import Mathlib

/-!
Shallow embedding of `bird.go` (package birdland): a recommendation engine
performing random walks on a user-item bipartite graph.

Go slices of float64 are modelled as `List ℚ` (weights are finite rationals;
NaN/Inf are not representable, see the sampler model note), Go `int` indices
as `Nat`, and the config fields as `Int` (so that the `< 1` validation checks
cover non-positive values).  Go's rand source is modelled as an explicit
stream of naturals (`RandSrc`) threaded through every sampling operation; an
out-of-bounds slice access (a Go panic) is modelled as the distinguished
`Failure.oob` outcome, while Go `error` values are `Failure.berr` carrying a
`GoErr` (a message, possibly wrapped with context as by `errors.Wrap`).
-/

/-- Model of a Go `error` value: either a plain message (`errors.New`,
`fmt.Errorf`) or a wrapped cause with a context message (`errors.Wrap`). -/
inductive GoErr where
  | msg (s : String)
  | wrap (context : String) (cause : GoErr)
deriving DecidableEq

/-- Outcome of a fallible Go computation: an out-of-bounds slice access
(panic) or a returned `error` value. -/
inductive Failure where
  | oob
  | berr (e : GoErr)
deriving DecidableEq

/-- Model of `errors.Wrap(err, ctx)` lifted to `Failure`: a panic is not an
`error` value and propagates unwrapped. -/
def wrapF (ctx : String) : Failure → Failure
  | .oob => .oob
  | .berr e => .berr (.wrap ctx e)

/-- Checked slice indexing: `l[i]` in Go, with the out-of-bounds panic made
explicit as `Failure.oob`. -/
def getF {α : Type} : List α → Nat → Except Failure α
  | [], _ => .error .oob
  | a :: _, 0 => .ok a
  | _ :: t, i + 1 => getF t i

instance {ε α : Type} [DecidableEq ε] [DecidableEq α] : DecidableEq (Except ε α) := fun x y =>
  match x, y with
  | .error a, .error b =>
      if h : a = b then isTrue (congrArg Except.error h)
      else isFalse (fun hc => h (Except.error.inj hc))
  | .error _, .ok _ => isFalse (fun hc => Except.noConfusion hc)
  | .ok _, .error _ => isFalse (fun hc => Except.noConfusion hc)
  | .ok a, .ok b =>
      if h : a = b then isTrue (congrArg Except.ok h)
      else isFalse (fun hc => h (Except.ok.inj hc))

/-- Model of the Go rand source: a deterministic stream of naturals (`seq`) with a
current position.  Identically seeded sources have equal `seq` and `pos`. -/
structure RandSrc where
  seq : Nat → Nat
  pos : Nat

/-- Draw the next raw value from the source. -/
def RandSrc.next (r : RandSrc) : Nat × RandSrc :=
  (r.seq r.pos, ⟨r.seq, r.pos + 1⟩)

/-- Model of `rand.Intn(n)`: one raw draw reduced modulo `n`.  For `n > 0`
the result is in `[0, n)`, as `Intn` guarantees. -/
def RandSrc.intn (r : RandSrc) (n : Nat) : Nat × RandSrc :=
  let p := r.next
  (p.1 % n, p.2)

/-- Monadic map over `Except` mirroring a Go `for` loop with an early
`return nil, err`: it stops at the first failing element. -/
def mapE {α β : Type} (f : α → Except Failure β) : List α → Except Failure (List β)
  | [] => .ok []
  | a :: as =>
    match f a with
    | .error e => .error e
    | .ok b =>
      match mapE f as with
      | .error e => .error e
      | .ok bs => .ok (b :: bs)

/-- Modelled from the spec: the `sampler.AliasSampler` type of the sibling
`sampler` package (its source is not part of this repository snapshot).  Per
§4.1 a constructed sampler over `n` outcomes only ever returns indices in
`[0, n)`, so the model retains the number of outcomes `n`. -/
structure AliasSampler where
  n : Nat
deriving DecidableEq

/-- Modelled from the spec: `sampler.NewAliasSampler` (§4.1).  Construction
fails with `EmptyDistribution` when the weight vector is empty and with
`InvalidWeight` when some weight is negative or the weights sum to zero
(non-finite weights are not representable over ℚ).  Otherwise the sampler
over `n = len(weights)` outcomes is produced. -/
def NewAliasSampler (weights : List ℚ) : Except GoErr AliasSampler :=
  if weights.length = 0 then .error (.msg "empty distribution")
  else if weights.any (fun w => w < 0) then .error (.msg "invalid weight")
  else if weights.sum = 0 then .error (.msg "invalid weight")
  else .ok ⟨weights.length⟩

/-- Modelled from the spec: repeated draws, `k` raw values from the shared
source, each reduced into `[0, n)` (§4.1: `Sample(k)` returns exactly `k`
indices in `[0, n)`; the distribution itself is irrelevant here, only the
consumption of the shared source and the range of the outputs). -/
def sampleAux (n : Nat) : Nat → RandSrc → List Nat × RandSrc
  | 0, r => ([], r)
  | k + 1, r =>
    let p := r.intn n
    let rest := sampleAux n k p.2
    (p.1 :: rest.1, rest.2)

/-- Modelled from the spec: `AliasSampler.Sample(k)` (§4.1). -/
def AliasSampler.sample (s : AliasSampler) (k : Nat) (r : RandSrc) : List Nat × RandSrc :=
  sampleAux s.n k r

/-- Embedding of `QueryItem` (bird.go lines 12-15). -/
structure QueryItem where
  item : Nat
  weight : ℚ
deriving DecidableEq

/-- Embedding of `BirdCfg` (bird.go lines 17-20).  Fields are `Int` so that
the `< 1` validation in `NewBird` covers zero and negative values. -/
structure BirdCfg where
  depth : Int
  draws : Int
deriving DecidableEq

/-- Embedding of the `Bird` struct (bird.go lines 33-40).  The shared random
source is carried as an explicit field. -/
structure Bird where
  cfg : BirdCfg
  itemWeights : List ℚ
  usersToItems : List (List Nat)
  itemsToUsers : List (List Nat)
  userItemsSamplers : List AliasSampler
  rand : RandSrc

/-- Embedding of the inner update `itemsToUsers[iid] = append(itemsToUsers[iid], uid)`
(bird.go line 235).  Positions beyond the end leave the list unchanged (the Go
access panics there; `NewBird` validates all indices in bounds first). -/
def appendAt : List (List Nat) → Nat → Nat → List (List Nat)
  | [], _, _ => []
  | l :: ls, 0, uid => (l ++ [uid]) :: ls
  | l :: ls, i + 1, uid => l :: appendAt ls i uid

/-- Embedding of the inner loop of `permuteAdjacencyList` for a single user
(bird.go line 234): append `uid` to the reverse list of each item in the
user's collection, in collection order. -/
def permuteUser (acc : List (List Nat)) (uid : Nat) (userItems : List Nat) : List (List Nat) :=
  userItems.foldl (fun a iid => appendAt a iid uid) acc

/-- Embedding of the outer `for uid, userItems := range usersToItems` loop of
`permuteAdjacencyList` (bird.go lines 233-237), carrying the running user id. -/
def permuteAux (uid : Nat) (users : List (List Nat)) (acc : List (List Nat)) : List (List Nat) :=
  match users with
  | [] => acc
  | ui :: rest => permuteAux (uid + 1) rest (permuteUser acc uid ui)

/-- Embedding of `permuteAdjacencyList` (bird.go lines 226-240). -/
def permuteAdjacencyList (numItems : Nat) (usersToItems : List (List Nat)) : List (List Nat) :=
  permuteAux 0 usersToItems (List.replicate numItems [])

/-- Embedding of the maximum-index scan of `validateBirdInputs`
(bird.go lines 209-216): `m` starts at 0 and is raised to any larger index. -/
def maxItemIndex (usersToItems : List (List Nat)) : Nat :=
  usersToItems.foldl (fun m l => l.foldl (fun m i => max m i) m) 0

/-- Embedding of `validateBirdInputs` (bird.go lines 198-222). -/
def validateBirdInputs (itemWeights : List ℚ) (usersToItems : List (List Nat)) :
    Except GoErr Unit :=
  if itemWeights.length = 0 then .error (.msg "empty slice of item weights")
  else if usersToItems.length = 0 then .error (.msg "empty users to items adjacency table")
  else if itemWeights.length ≤ maxItemIndex usersToItems then
    .error (.msg "UsersToItems references more items itemWeights")
  else .ok ()

/-- Embedding of `initUserItemsSamplers` (bird.go lines 172-193): one sampler
per user, over the global weights of the user's own collection; the first
sampler-construction error aborts with a fixed wrap message. -/
def initUserItemsSamplers (itemWeights : List ℚ) (usersToItems : List (List Nat)) :
    Except Failure (List AliasSampler) :=
  mapE
    (fun userItems =>
      match mapE (fun item => getF itemWeights item) userItems with
      | .error f => .error f
      | .ok weights =>
        match NewAliasSampler weights with
        | .error e =>
          .error (.berr (.wrap "could not initialize the probability and alias tables" e))
        | .ok s => .ok s)
    usersToItems

/-- Embedding of `NewBird` (bird.go lines 43-77).  The randomness source,
seeded in Go from `time.Now().UnixNano()`, is an explicit input here. -/
def NewBird (cfg : BirdCfg) (itemWeights : List ℚ) (usersToItems : List (List Nat))
    (randSource : RandSrc) : Except Failure Bird :=
  if cfg.depth < 1 then
    .error (.berr (.msg "the depth must be greater than or equal to 1"))
  else if cfg.draws < 1 then
    .error (.berr (.msg "the number of draws must be greater than or equal to 1"))
  else
    match validateBirdInputs itemWeights usersToItems with
    | .error e => .error (.berr (.wrap "invalid input" e))
    | .ok _ =>
      match initUserItemsSamplers itemWeights usersToItems with
      | .error f => .error (wrapF "cannot initialize samplers" f)
      | .ok samplers =>
        .ok { cfg := cfg
              itemWeights := itemWeights
              usersToItems := usersToItems
              itemsToUsers := permuteAdjacencyList itemWeights.length usersToItems
              userItemsSamplers := samplers
              rand := randSource }

/-- Embedding of the seed-placement loop of `sampleItemsFromQuery`
(bird.go lines 123-129): `sampledItems` is preallocated with one zero slot
per draw; a draw whose item has an empty `ItemsToUsers` entry is skipped by
`continue`, leaving its slot at the default value 0; otherwise the slot
receives the drawn item. -/
def buildSampled (itemsToUsers : List (List Nat)) (items : List Nat) :
    List Nat → Except Failure (List Nat)
  | [] => .ok []
  | iid :: rest =>
    match getF items iid with
    | .error f => .error f
    | .ok it =>
      match getF itemsToUsers it with
      | .error f => .error f
      | .ok adj =>
        match buildSampled itemsToUsers items rest with
        | .error f => .error f
        | .ok out => .ok ((if adj.length = 0 then 0 else it) :: out)

/-- Embedding of `Bird.sampleItemsFromQuery` (bird.go lines 110-137). -/
def Bird.sampleItemsFromQuery (b : Bird) (query : List QueryItem) (r : RandSrc) :
    Except Failure (List Nat × RandSrc) :=
  match mapE
      (fun q =>
        match getF b.itemWeights q.item with
        | .error f => .error f
        | .ok w => .ok (q.weight * w))
      query with
  | .error f => .error f
  | .ok weights =>
    let items := query.map (fun q => q.item)
    match NewAliasSampler weights with
    | .error e => .error (.berr (.wrap "cannot create sampler" e))
    | .ok s =>
      let p := s.sample b.cfg.draws.toNat r
      match buildSampled b.itemsToUsers items p.1 with
      | .error f => .error f
      | .ok sampledItems =>
        if sampledItems.length = 0 then
          .error (.berr (.msg
            "no items were sampled,check that the query refers to actual items."))
        else .ok (sampledItems, p.2)

/-- Embedding of the referrer loop of `Bird.step` (bird.go lines 144-151):
for each incoming item, pick one interacting user uniformly; an item with an
empty `ItemsToUsers` entry aborts with the orphan-item error. -/
def stepReferrers (itemsToUsers : List (List Nat)) :
    List Nat → RandSrc → Except Failure (List Nat × RandSrc)
  | [], r => .ok ([], r)
  | item :: rest, r =>
    match getF itemsToUsers item with
    | .error f => .error f
    | .ok relatedUsers =>
      if relatedUsers.length = 0 then
        .error (.berr (.msg
          ("cannot perform step: no one has interacted with item " ++ toString item)))
      else
        let p := r.intn relatedUsers.length
        match getF relatedUsers p.1 with
        | .error f => .error f
        | .ok u =>
          match stepReferrers itemsToUsers rest p.2 with
          | .error f => .error f
          | .ok (us, r') => .ok (u :: us, r')

/-- Embedding of `Bird.sampleItem` (bird.go lines 162-167). -/
def Bird.sampleItem (b : Bird) (user : Nat) (r : RandSrc) : Except Failure (Nat × RandSrc) :=
  match getF b.userItemsSamplers user with
  | .error f => .error f
  | .ok s =>
    let p := s.sample 1 r
    match getF p.1 0 with
    | .error f => .error f
    | .ok j =>
      match getF b.usersToItems user with
      | .error f => .error f
      | .ok collection =>
        match getF collection j with
        | .error f => .error f
        | .ok it => .ok (it, p.2)

/-- Embedding of the item loop of `Bird.step` (bird.go lines 153-156): one
item drawn from each referrer's per-user sampler, in referrer order. -/
def stepNewItems (b : Bird) : List Nat → RandSrc → Except Failure (List Nat × RandSrc)
  | [], r => .ok ([], r)
  | user :: rest, r =>
    match b.sampleItem user r with
    | .error f => .error f
    | .ok (it, r') =>
      match stepNewItems b rest r' with
      | .error f => .error f
      | .ok (its, r'') => .ok (it :: its, r'')

/-- Embedding of `Bird.step` (bird.go lines 142-159): all referrers are
chosen first (consuming one draw per item), then one new item per referrer. -/
def Bird.step (b : Bird) (items : List Nat) (r : RandSrc) :
    Except Failure (List Nat × List Nat × RandSrc) :=
  match stepReferrers b.itemsToUsers items r with
  | .error f => .error f
  | .ok (referrers, r') =>
    match stepNewItems b referrers r' with
    | .error f => .error f
    | .ok (newItems, r'') => .ok (newItems, referrers, r'')

/-- Embedding of the depth loop of `Bird.Process` (bird.go lines 94-101).
The Go loop body re-declares `stepItems` with `:=`, shadowing the outer
variable, so the call `b.step(stepItems)` of every iteration receives the
ORIGINAL seed items; accordingly the recursive call passes `stepItems`
unchanged.  Each iteration's results are appended in iteration order, and a
failing step aborts the loop with its error wrapped once. -/
def Bird.processLoop (b : Bird) (stepItems : List Nat) :
    Nat → RandSrc → Except Failure (List Nat × List Nat × RandSrc)
  | 0, r => .ok ([], [], r)
  | d + 1, r =>
    match b.step stepItems r with
    | .error f => .error (wrapF "cannot step through items" f)
    | .ok (newItems, newReferrers, r') =>
      match b.processLoop stepItems d r' with
      | .error f => .error f
      | .ok (items, referrers, r'') =>
        .ok (newItems ++ items, newReferrers ++ referrers, r'')

/-- Embedding of `Bird.Process` (bird.go lines 82-104).  The final random
source state is returned alongside the item and referrer sequences. -/
def Bird.Process (b : Bird) (query : List QueryItem) :
    Except Failure (List Nat × List Nat × RandSrc) :=
  if query.length = 0 then .error (.berr (.msg "empty query"))
  else
    match b.sampleItemsFromQuery query b.rand with
    | .error f => .error (wrapF "cannot sample items" f)
    | .ok (stepItems, r1) => b.processLoop stepItems b.cfg.depth.toNat r1

/-- Modelled from the spec: the depth loop as §4.2 step 4 prescribes it,
"each hop's output item sequence is logically the input to the next hop",
i.e. the working set of hop `t` is the item sequence produced by hop `t-1`
(genuine chaining).  Everything else is as in `Bird.processLoop`. -/
def Bird.chainedLoop (b : Bird) :
    List Nat → Nat → RandSrc → Except Failure (List Nat × List Nat × RandSrc)
  | _, 0, r => .ok ([], [], r)
  | cur, d + 1, r =>
    match b.step cur r with
    | .error f => .error (wrapF "cannot step through items" f)
    | .ok (newItems, newReferrers, r') =>
      match b.chainedLoop newItems d r' with
      | .error f => .error f
      | .ok (items, referrers, r'') =>
        .ok (newItems ++ items, newReferrers ++ referrers, r'')

/-- Modelled from the spec: `Process` with the chained depth loop of §4.2
step 4 in place of the repeated-single-hop loop the Go code performs. -/
def Bird.chainedProcess (b : Bird) (query : List QueryItem) :
    Except Failure (List Nat × List Nat × RandSrc) :=
  if query.length = 0 then .error (.berr (.msg "empty query"))
  else
    match b.sampleItemsFromQuery query b.rand with
    | .error f => .error (wrapF "cannot sample items" f)
    | .ok (stepItems, r1) => b.chainedLoop stepItems b.cfg.depth.toNat r1

/-- Projection dropping the final random-source state, for stating concrete
input/output facts (the stream function itself has no decidable equality). -/
def outPair : Except Failure (List Nat × List Nat × RandSrc) →
    Except Failure (List Nat × List Nat)
  | .error f => .error f
  | .ok (items, referrers, _) => .ok (items, referrers)

/-- Projection dropping the random-source state of `sampleItemsFromQuery`. -/
def outSeeds : Except Failure (List Nat × RandSrc) → Except Failure (List Nat)
  | .error f => .error f
  | .ok (seeds, _) => .ok seeds

/-- Total variant of list indexing used to state the reverse-adjacency
invariant: the list at position `i`, or `[]` past the end. -/
def nthL (ls : List (List Nat)) (i : Nat) : List Nat :=
  match ls, i with
  | [], _ => []
  | l :: _, 0 => l
  | _ :: t, i + 1 => nthL t i

/-- Number of occurrences of user `v` that the users `uid, uid+1, ...` of
`users` contribute to the reverse list of item `j`: the collection of user
`v` contributes its count of `j`, every other user contributes nothing. -/
def userContrib : List (List Nat) → Nat → Nat → Nat → Nat
  | [], _, _, _ => 0
  | ui :: rest, uid, v, j =>
    (if v = uid then ui.count j else 0) + userContrib rest (uid + 1) v j

/-- Constant-zero random stream, used by the concrete scenarios. -/
def seqZ : Nat → Nat := fun _ => 0

/-- Random source over the constant-zero stream. -/
def rZ : RandSrc := ⟨seqZ, 0⟩

/-- Stream steering the depth-2 scenario of the chaining analysis: the two
per-user draws of hop 1 and hop 2 pick collection positions 1 and 0, and the
referrer draw of a (chained) second hop picks position 1. -/
def seqC1 : Nat → Nat := fun n => [0, 0, 1, 1, 0].getD n 0

/-- Walker of the chaining scenario: three items of weight 1, user 0 holding
items 0 and 1, user 1 holding items 1 and 2, depth 2, one draw per call. -/
def birdC1 : Bird :=
  { cfg := ⟨2, 1⟩
    itemWeights := [1, 1, 1]
    usersToItems := [[0, 1], [1, 2]]
    itemsToUsers := [[0], [0, 1], [1]]
    userItemsSamplers := [⟨2⟩, ⟨2⟩]
    rand := ⟨seqC1, 0⟩ }

/-- Walker of the invalid-seed scenario: item 2 has an empty reverse list
(no user interacted with it), items 0 and 1 are held by user 0. -/
def birdC2 : Bird :=
  { cfg := ⟨1, 1⟩
    itemWeights := [1, 1, 1]
    usersToItems := [[0, 1]]
    itemsToUsers := [[0], [0], []]
    userItemsSamplers := [⟨2⟩]
    rand := rZ }

/-- Walker of the orphan-seed scenario: item 0 has an empty reverse list and
is also the default seed slot value. -/
def birdC6 : Bird :=
  { cfg := ⟨1, 1⟩
    itemWeights := [1, 1]
    usersToItems := [[1]]
    itemsToUsers := [[], [0]]
    userItemsSamplers := [⟨1⟩]
    rand := rZ }

/-- Minimal valid walker (one item, one user), used for the bounds and shape
scenarios. -/
def birdOob : Bird :=
  { cfg := ⟨1, 1⟩
    itemWeights := [1]
    usersToItems := [[0]]
    itemsToUsers := [[0]]
    userItemsSamplers := [⟨1⟩]
    rand := rZ }

/-- Structural invariants that `NewBird` establishes and that `Process`
relies on: the reverse adjacency has one entry per item, reverse lists hold
valid user ids, and each user has a sampler sized to its nonempty
collection. -/
def WellFormed (b : Bird) : Prop :=
  b.itemsToUsers.length = b.itemWeights.length ∧
  b.userItemsSamplers.length = b.usersToItems.length ∧
  (∀ i adj, b.itemsToUsers.get? i = some adj → ∀ u ∈ adj, u < b.usersToItems.length) ∧
  (∀ u s, b.userItemsSamplers.get? u = some s →
    ∃ c, b.usersToItems.get? u = some c ∧ s.n = c.length ∧ c.length ≠ 0)

/-! Basic lemmas about checked indexing, the monadic map and sampling. -/

theorem getF_ok_lt {α : Type} {l : List α} {i : Nat} {a : α}
    (h : getF l i = .ok a) : i < l.length := by
  induction l generalizing i with
  | nil => simp [getF] at h
  | cons x t ih =>
    cases i with
    | zero => simp
    | succ j =>
      simp only [getF] at h
      exact Nat.succ_lt_succ (ih h)

theorem getF_lt_ok {α : Type} {l : List α} {i : Nat}
    (h : i < l.length) : ∃ a, getF l i = .ok a := by
  induction l generalizing i with
  | nil => simp at h
  | cons x t ih =>
    cases i with
    | zero => exact ⟨x, rfl⟩
    | succ j => exact ih (Nat.lt_of_succ_lt_succ h)

theorem getF_ok_mem {α : Type} {l : List α} {i : Nat} {a : α}
    (h : getF l i = .ok a) : a ∈ l := by
  induction l generalizing i with
  | nil => simp [getF] at h
  | cons x t ih =>
    cases i with
    | zero =>
      simp only [getF] at h
      cases h
      exact List.mem_cons_self _ _
    | succ j =>
      simp only [getF] at h
      exact List.mem_cons_of_mem x (ih h)

theorem getF_eq_get? {α : Type} {l : List α} {i : Nat} {a : α} :
    getF l i = .ok a ↔ l.get? i = some a := by
  induction l generalizing i with
  | nil => simp [getF]
  | cons x t ih =>
    cases i with
    | zero => simp [getF]
    | succ j => simpa [getF] using ih

theorem mapE_ok_length {α β : Type} {f : α → Except Failure β} {l : List α} {out : List β}
    (h : mapE f l = .ok out) : out.length = l.length := by
  induction l generalizing out with
  | nil =>
    simp only [mapE] at h
    cases h
    rfl
  | cons a as ih =>
    simp only [mapE] at h
    cases hf : f a with
    | error e => rw [hf] at h; cases h
    | ok b =>
      rw [hf] at h
      cases hr : mapE f as with
      | error e => rw [hr] at h; cases h
      | ok bs =>
        rw [hr] at h
        cases h
        simpa using ih hr

theorem mapE_ok_get {α β : Type} {f : α → Except Failure β} {l : List α} {out : List β}
    (h : mapE f l = .ok out) :
    ∀ i a, l.get? i = some a → ∃ b, f a = .ok b ∧ out.get? i = some b := by
  induction l generalizing out with
  | nil => intro i a ha; simp at ha
  | cons x as ih =>
    simp only [mapE] at h
    cases hf : f x with
    | error e => rw [hf] at h; cases h
    | ok b =>
      rw [hf] at h
      cases hr : mapE f as with
      | error e => rw [hr] at h; cases h
      | ok bs =>
        rw [hr] at h
        cases h
        intro i a ha
        cases i with
        | zero =>
          simp at ha
          subst ha
          exact ⟨b, hf, rfl⟩
        | succ j =>
          simp only [List.get?] at ha ⊢
          exact ih hr j a ha

theorem mapE_ok_mem {α β : Type} {f : α → Except Failure β} {l : List α} {out : List β}
    (h : mapE f l = .ok out) : ∀ b ∈ out, ∃ a ∈ l, f a = .ok b := by
  induction l generalizing out with
  | nil =>
    simp only [mapE] at h
    cases h
    simp
  | cons x as ih =>
    simp only [mapE] at h
    cases hf : f x with
    | error e => rw [hf] at h; cases h
    | ok b =>
      rw [hf] at h
      cases hr : mapE f as with
      | error e => rw [hr] at h; cases h
      | ok bs =>
        rw [hr] at h
        cases h
        intro c hc
        rcases List.mem_cons.mp hc with hc | hc
        · exact ⟨x, List.mem_cons_self x as, hc ▸ hf⟩
        · rcases ih hr c hc with ⟨a, ha, hfa⟩
          exact ⟨a, List.mem_cons_of_mem x ha, hfa⟩

theorem mapE_error_of_mem {α β : Type} {f : α → Except Failure β} {l : List α} {a : α} {e : Failure}
    (ha : a ∈ l) (hf : f a = .error e) : ∃ e', mapE f l = .error e' := by
  induction l with
  | nil => simp at ha
  | cons x as ih =>
    rcases List.mem_cons.mp ha with h | h
    · subst h
      exact ⟨e, by simp [mapE, hf]⟩
    · cases hx : f x with
      | error e' => exact ⟨e', by simp [mapE, hx]⟩
      | ok b =>
        rcases ih h with ⟨e', he'⟩
        exact ⟨e', by simp [mapE, hx, he']⟩

theorem mapE_ok_of_forall {α β : Type} {f : α → Except Failure β} {l : List α}
    (h : ∀ a ∈ l, ∃ b, f a = .ok b) : ∃ out, mapE f l = .ok out := by
  induction l with
  | nil => exact ⟨[], rfl⟩
  | cons x as ih =>
    rcases h x (List.mem_cons_self x as) with ⟨b, hb⟩
    rcases ih (fun a ha => h a (List.mem_cons_of_mem x ha)) with ⟨out, hout⟩
    exact ⟨b :: out, by simp [mapE, hb, hout]⟩

theorem sampleAux_length (n k : Nat) (r : RandSrc) : (sampleAux n k r).1.length = k := by
  induction k generalizing r with
  | zero => rfl
  | succ j ih => simp [sampleAux, ih]

theorem sampleAux_mem_lt {n : Nat} (hn : 0 < n) :
    ∀ (k : Nat) (r : RandSrc), ∀ x ∈ (sampleAux n k r).1, x < n := by
  intro k
  induction k with
  | zero => intro r x hx; simp [sampleAux] at hx
  | succ j ih =>
    intro r x hx
    simp only [sampleAux] at hx
    rcases List.mem_cons.mp hx with h | h
    · subst h
      exact Nat.mod_lt _ hn
    · exact ih _ x h

theorem sample_length (s : AliasSampler) (k : Nat) (r : RandSrc) :
    (s.sample k r).1.length = k :=
  sampleAux_length s.n k r

theorem sample_mem_lt {s : AliasSampler} {k : Nat} {r : RandSrc} (hn : 0 < s.n) :
    ∀ x ∈ (s.sample k r).1, x < s.n :=
  sampleAux_mem_lt hn k r

/-! Lemmas about the reverse-adjacency construction. -/

theorem get?_some_lt {α : Type} {l : List α} {i : Nat} {a : α}
    (h : l.get? i = some a) : i < l.length := by
  induction l generalizing i with
  | nil => simp at h
  | cons x t ih =>
    cases i with
    | zero => simp
    | succ j =>
      simp only [List.get?] at h
      exact Nat.succ_lt_succ (ih h)

theorem appendAt_length (ls : List (List Nat)) (iid uid : Nat) :
    (appendAt ls iid uid).length = ls.length := by
  induction ls generalizing iid with
  | nil => rfl
  | cons l t ih =>
    cases iid with
    | zero => rfl
    | succ i => simp [appendAt, ih]

theorem nthL_appendAt (ls : List (List Nat)) (iid uid j : Nat) :
    nthL (appendAt ls iid uid) j =
      if j = iid ∧ iid < ls.length then nthL ls j ++ [uid] else nthL ls j := by
  induction ls generalizing iid j with
  | nil => simp [appendAt, nthL]
  | cons l t ih =>
    cases iid with
    | zero =>
      cases j with
      | zero => simp [appendAt, nthL]
      | succ j' => simp [appendAt, nthL]
    | succ i =>
      cases j with
      | zero => simp [appendAt, nthL]
      | succ j' =>
        simp only [appendAt, nthL, List.length_cons]
        rw [ih]
        by_cases hc : j' = i ∧ i < t.length
        · rw [if_pos hc, if_pos (by omega)]
        · rw [if_neg hc, if_neg (by omega)]

theorem permuteUser_length (userItems : List Nat) :
    ∀ (acc : List (List Nat)) (uid : Nat),
      (permuteUser acc uid userItems).length = acc.length := by
  induction userItems with
  | nil => intro acc uid; rfl
  | cons i rest ih =>
    intro acc uid
    have hstep : permuteUser acc uid (i :: rest) = permuteUser (appendAt acc i uid) uid rest := rfl
    rw [hstep, ih, appendAt_length]

theorem count_nthL_permuteUser (userItems : List Nat) :
    ∀ (acc : List (List Nat)) (uid j v : Nat),
      (nthL (permuteUser acc uid userItems) j).count v =
        (nthL acc j).count v +
          if j < acc.length ∧ v = uid then userItems.count j else 0 := by
  induction userItems with
  | nil => intro acc uid j v; simp [permuteUser]
  | cons i rest ih =>
    intro acc uid j v
    have hstep : permuteUser acc uid (i :: rest) = permuteUser (appendAt acc i uid) uid rest := rfl
    rw [hstep, ih, appendAt_length, nthL_appendAt]
    split_ifs
    all_goals
      simp only [List.count_append, List.count_singleton', List.count_cons, List.count_nil,
        beq_iff_eq]
    all_goals split_ifs <;> omega

theorem permuteAux_length (users : List (List Nat)) :
    ∀ (uid : Nat) (acc : List (List Nat)), (permuteAux uid users acc).length = acc.length := by
  induction users with
  | nil => intro uid acc; rfl
  | cons ui rest ih =>
    intro uid acc
    simp only [permuteAux]
    rw [ih, permuteUser_length]

theorem permuteAdjacencyList_length (numItems : Nat) (usersToItems : List (List Nat)) :
    (permuteAdjacencyList numItems usersToItems).length = numItems := by
  simp only [permuteAdjacencyList]
  rw [permuteAux_length, List.length_replicate]

theorem userContrib_eq_zero_of_lt (users : List (List Nat)) :
    ∀ (uid v j : Nat), v < uid → userContrib users uid v j = 0 := by
  induction users with
  | nil => intro uid v j _; rfl
  | cons ui rest ih =>
    intro uid v j h
    simp only [userContrib]
    rw [if_neg (by omega), ih (uid + 1) v j (by omega)]

theorem userContrib_eq_zero_of_ge (users : List (List Nat)) :
    ∀ (uid v j : Nat), uid + users.length ≤ v → userContrib users uid v j = 0 := by
  induction users with
  | nil => intro uid v j _; rfl
  | cons ui rest ih =>
    intro uid v j h
    simp only [List.length_cons] at h
    simp only [userContrib]
    rw [if_neg (by omega), ih (uid + 1) v j (by omega)]

theorem userContrib_get (users : List (List Nat)) :
    ∀ (uid u j : Nat) (l : List Nat), users.get? u = some l →
      userContrib users uid (uid + u) j = l.count j := by
  induction users with
  | nil => intro uid u j l h; simp at h
  | cons ui rest ih =>
    intro uid u j l h
    cases u with
    | zero =>
      simp at h
      subst h
      simp only [userContrib]
      rw [if_pos (by omega), userContrib_eq_zero_of_lt rest (uid + 1) (uid + 0) j (by omega)]
      omega
    | succ u' =>
      simp only [List.get?] at h
      simp only [userContrib]
      rw [if_neg (by omega)]
      have hrec := ih (uid + 1) u' j l h
      rw [show uid + (u' + 1) = (uid + 1) + u' by omega]
      simpa using hrec

theorem count_nthL_permuteAux (users : List (List Nat)) :
    ∀ (uid : Nat) (acc : List (List Nat)) (j v : Nat),
      (nthL (permuteAux uid users acc) j).count v =
        (nthL acc j).count v + if j < acc.length then userContrib users uid v j else 0 := by
  induction users with
  | nil => intro uid acc j v; simp [permuteAux, userContrib]
  | cons ui rest ih =>
    intro uid acc j v
    simp only [permuteAux]
    rw [ih, permuteUser_length, count_nthL_permuteUser]
    simp only [userContrib]
    split_ifs <;> omega

theorem nthL_replicate (n : Nat) : ∀ (j : Nat), nthL (List.replicate n []) j = [] := by
  induction n with
  | zero => intro j; cases j <;> rfl
  | succ m ih =>
    intro j
    cases j with
    | zero => rfl
    | succ j' => simpa [List.replicate_succ, nthL] using ih j'

theorem nthL_eq_of_get? {ls : List (List Nat)} {i : Nat} {l : List Nat}
    (h : ls.get? i = some l) : nthL ls i = l := by
  induction ls generalizing i with
  | nil => simp at h
  | cons x t ih =>
    cases i with
    | zero =>
      simp at h
      subst h
      rfl
    | succ j => exact ih (by simpa using h)

theorem permute_count {numItems : Nat} {usersToItems : List (List Nat)}
    {u : Nat} {uList : List Nat} (hu : usersToItems.get? u = some uList)
    {i : Nat} {iList : List Nat}
    (hi : (permuteAdjacencyList numItems usersToItems).get? i = some iList) :
    iList.count u = uList.count i := by
  have hlen : i < numItems := by
    have h := get?_some_lt hi
    rwa [permuteAdjacencyList_length] at h
  have hmain := count_nthL_permuteAux usersToItems 0 (List.replicate numItems []) i u
  rw [nthL_replicate, List.count_nil, List.length_replicate, if_pos hlen] at hmain
  have hnth : nthL (permuteAux 0 usersToItems (List.replicate numItems [])) i = iList := by
    simp only [permuteAdjacencyList] at hi
    exact nthL_eq_of_get? hi
  rw [hnth] at hmain
  have hcontrib := userContrib_get usersToItems 0 u i uList hu
  simp only [Nat.zero_add] at hcontrib
  omega

theorem permute_mem_lt {numItems : Nat} {usersToItems : List (List Nat)}
    {i : Nat} {iList : List Nat}
    (hi : (permuteAdjacencyList numItems usersToItems).get? i = some iList) :
    ∀ u ∈ iList, u < usersToItems.length := by
  intro u hu
  by_contra hge
  push_neg at hge
  have hcnt : 0 < iList.count u := List.count_pos_iff.mpr hu
  have hlen : i < numItems := by
    have h := get?_some_lt hi
    rwa [permuteAdjacencyList_length] at h
  have hmain := count_nthL_permuteAux usersToItems 0 (List.replicate numItems []) i u
  rw [nthL_replicate, List.count_nil, List.length_replicate, if_pos hlen] at hmain
  have hnth : nthL (permuteAux 0 usersToItems (List.replicate numItems [])) i = iList := by
    simp only [permuteAdjacencyList] at hi
    exact nthL_eq_of_get? hi
  rw [hnth] at hmain
  rw [userContrib_eq_zero_of_ge usersToItems 0 u i (by omega)] at hmain
  omega

/-! Lemmas about seed sampling. -/

theorem buildSampled_ok_length {itu : List (List Nat)} {items ds out : List Nat}
    (h : buildSampled itu items ds = .ok out) : out.length = ds.length := by
  induction ds generalizing out with
  | nil =>
    simp only [buildSampled] at h
    cases h
    rfl
  | cons iid rest ih =>
    simp only [buildSampled] at h
    cases h1 : getF items iid with
    | error f =>
      simp only [h1] at h
      cases h
    | ok it =>
      simp only [h1] at h
      cases h2 : getF itu it with
      | error f =>
        simp only [h2] at h
        cases h
      | ok adj =>
        simp only [h2] at h
        cases h3 : buildSampled itu items rest with
        | error f =>
          simp only [h3] at h
          cases h
        | ok out' =>
          simp only [h3] at h
          cases h
          simpa using ih h3

theorem buildSampled_ok_get {itu : List (List Nat)} {items ds out : List Nat}
    (h : buildSampled itu items ds = .ok out) :
    ∀ k iid, ds.get? k = some iid →
      ∃ it adj, getF items iid = .ok it ∧ getF itu it = .ok adj ∧
        out.get? k = some (if adj.length = 0 then 0 else it) := by
  induction ds generalizing out with
  | nil => intro k iid hk; simp at hk
  | cons x rest ih =>
    simp only [buildSampled] at h
    cases h1 : getF items x with
    | error f =>
      simp only [h1] at h
      cases h
    | ok it =>
      simp only [h1] at h
      cases h2 : getF itu it with
      | error f =>
        simp only [h2] at h
        cases h
      | ok adj =>
        simp only [h2] at h
        cases h3 : buildSampled itu items rest with
        | error f =>
          simp only [h3] at h
          cases h
        | ok out' =>
          simp only [h3] at h
          cases h
          intro k iid hk
          cases k with
          | zero =>
            simp at hk
            subst hk
            exact ⟨it, adj, h1, h2, rfl⟩
          | succ k' =>
            simp only [List.get?] at hk ⊢
            exact ih h3 k' iid hk

theorem buildSampled_ok_mem {itu : List (List Nat)} {items ds out : List Nat}
    (h : buildSampled itu items ds = .ok out) : ∀ x ∈ out, x < itu.length := by
  induction ds generalizing out with
  | nil =>
    simp only [buildSampled] at h
    cases h
    simp
  | cons x rest ih =>
    simp only [buildSampled] at h
    cases h1 : getF items x with
    | error f =>
      simp only [h1] at h
      cases h
    | ok it =>
      simp only [h1] at h
      cases h2 : getF itu it with
      | error f =>
        simp only [h2] at h
        cases h
      | ok adj =>
        simp only [h2] at h
        cases h3 : buildSampled itu items rest with
        | error f =>
          simp only [h3] at h
          cases h
        | ok out' =>
          simp only [h3] at h
          cases h
          intro y hy
          rcases List.mem_cons.mp hy with hy | hy
          · subst hy
            have hit : it < itu.length := getF_ok_lt h2
            split
            · omega
            · exact hit
          · exact ih h3 y hy

theorem buildSampled_ok_of_forall {itu : List (List Nat)} {items ds : List Nat}
    (h : ∀ iid ∈ ds, ∃ it, getF items iid = .ok it ∧ it < itu.length) :
    ∃ out, buildSampled itu items ds = .ok out := by
  induction ds with
  | nil => exact ⟨[], rfl⟩
  | cons x rest ih =>
    rcases h x (List.mem_cons_self x rest) with ⟨it, hit, hlt⟩
    rcases getF_lt_ok hlt with ⟨adj, hadj⟩
    rcases ih (fun iid hiid => h iid (List.mem_cons_of_mem x hiid)) with ⟨out, hout⟩
    exact ⟨(if adj.length = 0 then 0 else it) :: out, by
      simp only [buildSampled, hit, hadj, hout]⟩

theorem sampleItemsFromQuery_ok_parts {b : Bird} {query : List QueryItem} {r : RandSrc}
    {seeds : List Nat} {r' : RandSrc}
    (h : b.sampleItemsFromQuery query r = .ok (seeds, r')) :
    ∃ ds : List Nat, ds.length = b.cfg.draws.toNat ∧
      buildSampled b.itemsToUsers (query.map (fun q => q.item)) ds = .ok seeds := by
  simp only [Bird.sampleItemsFromQuery] at h
  split at h
  · cases h
  · split at h
    · cases h
    next s hs =>
      split at h
      · cases h
      next out hout =>
        split at h
        · cases h
        · cases h
          exact ⟨(s.sample b.cfg.draws.toNat r).1, sample_length s _ r, hout⟩

theorem NewAliasSampler_ok_n {ws : List ℚ} {s : AliasSampler}
    (h : NewAliasSampler ws = .ok s) : s.n = ws.length ∧ 0 < ws.length := by
  simp only [NewAliasSampler] at h
  split at h
  · cases h
  · split at h
    · cases h
    · split at h
      · cases h
      · cases h
        exact ⟨rfl, by omega⟩

theorem sampleItemsFromQuery_ok_length {b : Bird} {query : List QueryItem} {r : RandSrc}
    {seeds : List Nat} {r' : RandSrc}
    (h : b.sampleItemsFromQuery query r = .ok (seeds, r')) :
    seeds.length = b.cfg.draws.toNat := by
  rcases sampleItemsFromQuery_ok_parts h with ⟨ds, hds, hbuild⟩
  rw [buildSampled_ok_length hbuild, hds]

theorem sampleItemsFromQuery_ok_mem {b : Bird} {query : List QueryItem} {r : RandSrc}
    {seeds : List Nat} {r' : RandSrc}
    (h : b.sampleItemsFromQuery query r = .ok (seeds, r')) :
    ∀ x ∈ seeds, x < b.itemsToUsers.length := by
  rcases sampleItemsFromQuery_ok_parts h with ⟨ds, hds, hbuild⟩
  exact buildSampled_ok_mem hbuild

theorem sampleItemsFromQuery_shape {b : Bird} {query : List QueryItem} (r : RandSrc)
    (hlen : b.itemsToUsers.length = b.itemWeights.length)
    (hq : ∀ q ∈ query, q.item < b.itemWeights.length) :
    (∃ seeds r', b.sampleItemsFromQuery query r = .ok (seeds, r')) ∨
    (∃ e, b.sampleItemsFromQuery query r = .error (.berr e)) := by
  have hall : ∀ q ∈ query, ∃ w,
      (fun q : QueryItem =>
        match getF b.itemWeights q.item with
        | .error f => (.error f : Except Failure ℚ)
        | .ok w => .ok (q.weight * w)) q = .ok w := by
    intro q hqm
    rcases getF_lt_ok (hq q hqm) with ⟨w, hw⟩
    exact ⟨q.weight * w, by simp [hw]⟩
  rcases mapE_ok_of_forall hall with ⟨weights, hweights⟩
  have hwlen : weights.length = query.length := mapE_ok_length hweights
  simp only [Bird.sampleItemsFromQuery, hweights]
  cases hsampler : NewAliasSampler weights with
  | error e => exact Or.inr ⟨_, rfl⟩
  | ok s =>
    rcases NewAliasSampler_ok_n hsampler with ⟨hn, hpos⟩
    have hds : ∀ iid ∈ (s.sample b.cfg.draws.toNat r).1, ∃ it,
        getF (query.map (fun q => q.item)) iid = .ok it ∧ it < b.itemsToUsers.length := by
      intro iid hiid
      have hlt : iid < (query.map (fun q => q.item)).length := by
        have := sample_mem_lt (by omega) iid hiid
        simp only [List.length_map]
        omega
      rcases getF_lt_ok hlt with ⟨it, hit⟩
      refine ⟨it, hit, ?_⟩
      have hmem : it ∈ query.map (fun q => q.item) := getF_ok_mem hit
      rcases List.mem_map.mp hmem with ⟨q, hqm, hqe⟩
      rw [hlen, ← hqe]
      exact hq q hqm
    rcases buildSampled_ok_of_forall hds with ⟨out, hout⟩
    simp only [hout]
    by_cases hz : out.length = 0
    · exact Or.inr ⟨_, by rw [if_pos hz]⟩
    · exact Or.inl ⟨out, _, by rw [if_neg hz]⟩

/-! Lemmas about the walk step. -/

theorem stepReferrers_ok_length {itu : List (List Nat)} {items : List Nat} {r : RandSrc}
    {us : List Nat} {r' : RandSrc}
    (h : stepReferrers itu items r = .ok (us, r')) : us.length = items.length := by
  induction items generalizing r us r' with
  | nil =>
    simp only [stepReferrers] at h
    cases h
    rfl
  | cons x rest ih =>
    simp only [stepReferrers] at h
    split at h
    · cases h
    next adj h1 =>
      split at h
      · cases h
      · split at h
        · cases h
        next u h2 =>
          split at h
          · cases h
          next us' r'' h3 =>
            cases h
            simpa using ih h3

theorem stepReferrers_ok_mem {itu : List (List Nat)} {items : List Nat} {r : RandSrc}
    {us : List Nat} {r' : RandSrc}
    (h : stepReferrers itu items r = .ok (us, r')) :
    ∀ u ∈ us, ∃ i ∈ items, ∃ adj, getF itu i = .ok adj ∧ u ∈ adj := by
  induction items generalizing r us r' with
  | nil =>
    simp only [stepReferrers] at h
    cases h
    simp
  | cons x rest ih =>
    simp only [stepReferrers] at h
    split at h
    · cases h
    next adj h1 =>
      split at h
      · cases h
      · split at h
        · cases h
        next u h2 =>
          split at h
          · cases h
          next us' r'' h3 =>
            cases h
            intro v hv
            rcases List.mem_cons.mp hv with hv | hv
            · subst hv
              exact ⟨x, List.mem_cons_self x rest, adj, h1, getF_ok_mem h2⟩
            · rcases ih h3 v hv with ⟨i, hi, adj', hadj', hmem⟩
              exact ⟨i, List.mem_cons_of_mem x hi, adj', hadj', hmem⟩

theorem stepReferrers_ok_nonempty {itu : List (List Nat)} {items : List Nat} {r : RandSrc}
    {us : List Nat} {r' : RandSrc}
    (h : stepReferrers itu items r = .ok (us, r')) :
    ∀ i ∈ items, ∃ adj, getF itu i = .ok adj ∧ adj.length ≠ 0 := by
  induction items generalizing r us r' with
  | nil => simp
  | cons x rest ih =>
    simp only [stepReferrers] at h
    split at h
    · cases h
    next adj h1 =>
      split at h
      next hz => cases h
      next hz =>
        split at h
        · cases h
        next u h2 =>
          split at h
          · cases h
          next us' r'' h3 =>
            intro i hi
            rcases List.mem_cons.mp hi with hi | hi
            · subst hi
              exact ⟨adj, h1, hz⟩
            · exact ih h3 i hi

theorem stepReferrers_shape {itu : List (List Nat)} {items : List Nat}
    (hb : ∀ x ∈ items, x < itu.length) :
    ∀ r : RandSrc, (∃ us r', stepReferrers itu items r = .ok (us, r')) ∨
      (∃ m, stepReferrers itu items r = .error (.berr (.msg m))) := by
  induction items with
  | nil => intro r; exact Or.inl ⟨[], r, rfl⟩
  | cons x rest ih =>
    intro r
    rcases getF_lt_ok (hb x (List.mem_cons_self x rest)) with ⟨adj, hadj⟩
    by_cases hz : adj.length = 0
    · refine Or.inr ⟨"cannot perform step: no one has interacted with item " ++ toString x, ?_⟩
      simp only [stepReferrers, hadj]
      rw [if_pos hz]
    · have hlt : (r.intn adj.length).1 < adj.length := Nat.mod_lt _ (by omega)
      rcases getF_lt_ok hlt with ⟨u, hu⟩
      rcases ih (fun y hy => hb y (List.mem_cons_of_mem x hy)) (r.intn adj.length).2 with
        ⟨us, r', hok⟩ | ⟨m, herr⟩
      · refine Or.inl ⟨u :: us, r', ?_⟩
        simp only [stepReferrers, hadj, hu, hok]
        rw [if_neg hz]
      · refine Or.inr ⟨m, ?_⟩
        simp only [stepReferrers, hadj, hu, herr]
        rw [if_neg hz]

theorem stepReferrers_orphan {itu : List (List Nat)} {items : List Nat} {it : Nat}
    (hb : ∀ x ∈ items, x < itu.length)
    (hit : it ∈ items) (horphan : getF itu it = .ok []) :
    ∀ r : RandSrc, ∃ m, stepReferrers itu items r = .error (.berr (.msg m)) := by
  intro r
  rcases stepReferrers_shape hb r with ⟨us, r', hok⟩ | ⟨m, herr⟩
  · rcases stepReferrers_ok_nonempty hok it hit with ⟨adj, hadj, hne⟩
    rw [horphan] at hadj
    cases hadj
    simp at hne
  · exact ⟨m, herr⟩

theorem sampleItem_ok {b : Bird} {user : Nat} {s : AliasSampler} {c : List Nat}
    (hs : getF b.userItemsSamplers user = .ok s)
    (hc : getF b.usersToItems user = .ok c)
    (hn : s.n = c.length) (hne : c.length ≠ 0) :
    ∀ r : RandSrc, ∃ it r', b.sampleItem user r = .ok (it, r') := by
  intro r
  have hvlt : (r.intn s.n).1 < c.length := by
    rw [← hn]
    exact Nat.mod_lt _ (by omega)
  rcases getF_lt_ok hvlt with ⟨it, hit⟩
  refine ⟨it, (r.intn s.n).2, ?_⟩
  simp only [Bird.sampleItem, hs, hc, AliasSampler.sample, sampleAux, getF, hit]

theorem stepNewItems_ok {b : Bird} {users : List Nat}
    (h : ∀ u ∈ users, ∃ s c, getF b.userItemsSamplers u = .ok s ∧
      getF b.usersToItems u = .ok c ∧ s.n = c.length ∧ c.length ≠ 0) :
    ∀ r : RandSrc, ∃ its r', stepNewItems b users r = .ok (its, r') := by
  induction users with
  | nil => intro r; exact ⟨[], r, rfl⟩
  | cons u rest ih =>
    intro r
    rcases h u (List.mem_cons_self u rest) with ⟨s, c, hs, hc, hn, hne⟩
    rcases sampleItem_ok hs hc hn hne r with ⟨it, r1, hsi⟩
    rcases ih (fun v hv => h v (List.mem_cons_of_mem u hv)) r1 with ⟨its, r2, hrec⟩
    exact ⟨it :: its, r2, by simp only [stepNewItems, hsi, hrec]⟩

theorem stepNewItems_ok_length {b : Bird} {users : List Nat} {r : RandSrc}
    {its : List Nat} {r' : RandSrc}
    (h : stepNewItems b users r = .ok (its, r')) : its.length = users.length := by
  induction users generalizing r its r' with
  | nil =>
    simp only [stepNewItems] at h
    cases h
    rfl
  | cons u rest ih =>
    simp only [stepNewItems] at h
    split at h
    · cases h
    next it r1 hsi =>
      split at h
      · cases h
      next its' r2 hrec =>
        cases h
        simpa using ih hrec

theorem step_ok_length {b : Bird} {items : List Nat} {r : RandSrc}
    {ni refs : List Nat} {r' : RandSrc}
    (h : b.step items r = .ok (ni, refs, r')) :
    ni.length = items.length ∧ refs.length = items.length := by
  simp only [Bird.step] at h
  split at h
  · cases h
  next us r1 h1 =>
    split at h
    · cases h
    next its r2 h2 =>
      cases h
      have e1 := stepReferrers_ok_length h1
      have e2 := stepNewItems_ok_length h2
      exact ⟨by omega, e1⟩

theorem step_shape {b : Bird} (hwf : WellFormed b) {items : List Nat}
    (hb : ∀ x ∈ items, x < b.itemsToUsers.length) (r : RandSrc) :
    (∃ out, b.step items r = .ok out) ∨
    (∃ m, b.step items r = .error (.berr (.msg m))) := by
  obtain ⟨hlen, hslen, husers, hsamp⟩ := hwf
  rcases stepReferrers_shape hb r with ⟨us, r1, h1⟩ | ⟨m, h1⟩
  · have hu : ∀ u ∈ us, ∃ s c, getF b.userItemsSamplers u = .ok s ∧
        getF b.usersToItems u = .ok c ∧ s.n = c.length ∧ c.length ≠ 0 := by
      intro u hum
      rcases stepReferrers_ok_mem h1 u hum with ⟨i, hi, adj, hadj, hmem⟩
      have hult : u < b.usersToItems.length := husers i adj (getF_eq_get?.mp hadj) u hmem
      have hslt : u < b.userItemsSamplers.length := by omega
      rcases getF_lt_ok hslt with ⟨s, hs⟩
      rcases hsamp u s (getF_eq_get?.mp hs) with ⟨c, hc, hn, hne⟩
      exact ⟨s, c, hs, getF_eq_get?.mpr hc, hn, hne⟩
    rcases stepNewItems_ok hu r1 with ⟨its, r2, h2⟩
    exact Or.inl ⟨(its, us, r2), by simp only [Bird.step, h1, h2]⟩
  · exact Or.inr ⟨m, by simp only [Bird.step, h1]⟩

theorem step_orphan {b : Bird} {items : List Nat} {it : Nat}
    (hb : ∀ x ∈ items, x < b.itemsToUsers.length)
    (hit : it ∈ items) (horphan : getF b.itemsToUsers it = .ok []) (r : RandSrc) :
    ∃ m, b.step items r = .error (.berr (.msg m)) := by
  rcases stepReferrers_orphan hb hit horphan r with ⟨m, herr⟩
  exact ⟨m, by simp only [Bird.step, herr]⟩

theorem processLoop_ok_length {b : Bird} {seeds : List Nat} :
    ∀ (d : Nat) (r : RandSrc) (items refs : List Nat) (r' : RandSrc),
      b.processLoop seeds d r = .ok (items, refs, r') →
      items.length = d * seeds.length ∧ refs.length = d * seeds.length := by
  intro d
  induction d with
  | zero =>
    intro r items refs r' h
    simp only [Bird.processLoop] at h
    cases h
    simp
  | succ e ih =>
    intro r items refs r' h
    simp only [Bird.processLoop] at h
    split at h
    · cases h
    next ni nr r1 h1 =>
      split at h
      · cases h
      next its refs' r2 h2 =>
        cases h
        have e1 := step_ok_length h1
        have e2 := ih r1 its refs' _ h2
        simp only [List.length_append, Nat.succ_mul]
        omega

theorem processLoop_shape {b : Bird} (hwf : WellFormed b) {seeds : List Nat}
    (hb : ∀ x ∈ seeds, x < b.itemsToUsers.length) :
    ∀ (d : Nat) (r : RandSrc),
      (∃ out, b.processLoop seeds d r = .ok out) ∨
      (∃ e, b.processLoop seeds d r = .error (.berr e)) := by
  intro d
  induction d with
  | zero => intro r; exact Or.inl ⟨([], [], r), rfl⟩
  | succ e ih =>
    intro r
    rcases step_shape hwf hb r with ⟨⟨ni, nr, r1⟩, h1⟩ | ⟨m, h1⟩
    · rcases ih r1 with ⟨⟨items, refs, r2⟩, h2⟩ | ⟨er, h2⟩
      · exact Or.inl ⟨(ni ++ items, nr ++ refs, r2), by simp only [Bird.processLoop, h1, h2]⟩
      · exact Or.inr ⟨er, by simp only [Bird.processLoop, h1, h2]⟩
    · exact Or.inr ⟨.wrap "cannot step through items" (.msg m), by
        simp only [Bird.processLoop, h1, wrapF]⟩

theorem processLoop_orphan {b : Bird} {seeds : List Nat} {it : Nat}
    (hb : ∀ x ∈ seeds, x < b.itemsToUsers.length)
    (hit : it ∈ seeds) (horphan : getF b.itemsToUsers it = .ok []) :
    ∀ (d : Nat), d ≠ 0 → ∀ r : RandSrc, ∃ m,
      b.processLoop seeds d r =
        .error (.berr (.wrap "cannot step through items" (.msg m))) := by
  intro d hd r
  cases d with
  | zero => omega
  | succ e =>
    rcases step_orphan hb hit horphan r with ⟨m, herr⟩
    exact ⟨m, by simp only [Bird.processLoop, herr, wrapF]⟩

/-! Lemmas about construction and validation. -/

theorem foldl_max_lt (l : List Nat) : ∀ (m n : Nat),
    l.foldl (fun m i => max m i) m < n ↔ (m < n ∧ ∀ i ∈ l, i < n) := by
  induction l with
  | nil => intro m n; simp
  | cons x t ih =>
    intro m n
    simp only [List.foldl]
    rw [ih, Nat.max_lt]
    constructor
    · rintro ⟨⟨hm, hx⟩, hall⟩
      refine ⟨hm, fun i hi => ?_⟩
      rcases List.mem_cons.mp hi with h | h
      · subst h; exact hx
      · exact hall i h
    · rintro ⟨hm, hall⟩
      exact ⟨⟨hm, hall x (List.mem_cons_self x t)⟩,
        fun i hi => hall i (List.mem_cons_of_mem x hi)⟩

theorem foldl2_max_lt (users : List (List Nat)) : ∀ (m n : Nat),
    users.foldl (fun m l => l.foldl (fun m i => max m i) m) m < n ↔
      (m < n ∧ ∀ l ∈ users, ∀ i ∈ l, i < n) := by
  induction users with
  | nil => intro m n; simp
  | cons l t ih =>
    intro m n
    simp only [List.foldl]
    rw [ih, foldl_max_lt]
    constructor
    · rintro ⟨⟨hm, hl⟩, ht⟩
      refine ⟨hm, fun l' hl' => ?_⟩
      rcases List.mem_cons.mp hl' with h | h
      · subst h; exact hl
      · exact ht l' h
    · rintro ⟨hm, hall⟩
      exact ⟨⟨hm, hall l (List.mem_cons_self l t)⟩,
        fun l' h => hall l' (List.mem_cons_of_mem l h)⟩

theorem maxItemIndex_lt_iff (users : List (List Nat)) (n : Nat) :
    maxItemIndex users < n ↔ (0 < n ∧ ∀ l ∈ users, ∀ i ∈ l, i < n) := by
  simpa [maxItemIndex] using foldl2_max_lt users 0 n

theorem validateBirdInputs_ok_iff (w : List ℚ) (adj : List (List Nat)) :
    validateBirdInputs w adj = .ok () ↔
      (w ≠ [] ∧ adj ≠ [] ∧ ∀ l ∈ adj, ∀ i ∈ l, i < w.length) := by
  simp only [validateBirdInputs]
  split_ifs with h1 h2 h3
  · constructor
    · intro h; cases h
    · rintro ⟨hw, _, _⟩; exact absurd (List.length_eq_zero.mp h1) hw
  · constructor
    · intro h; cases h
    · rintro ⟨_, ha, _⟩; exact absurd (List.length_eq_zero.mp h2) ha
  · constructor
    · intro h; cases h
    · rintro ⟨hw, _, hall⟩
      have hmax : maxItemIndex adj < w.length :=
        (maxItemIndex_lt_iff adj w.length).mpr ⟨List.length_pos.mpr hw, hall⟩
      omega
  · constructor
    · intro _
      have hmax : maxItemIndex adj < w.length := by omega
      have hiff := (maxItemIndex_lt_iff adj w.length).mp hmax
      refine ⟨?_, ?_, hiff.2⟩
      · intro he; subst he; simp at h1
      · intro he; subst he; simp at h2
    · intro _; rfl

theorem initUserItemsSamplers_ok_length {w : List ℚ} {adj : List (List Nat)}
    {samplers : List AliasSampler}
    (h : initUserItemsSamplers w adj = .ok samplers) : samplers.length = adj.length := by
  simp only [initUserItemsSamplers] at h
  exact mapE_ok_length h

theorem initUserItemsSamplers_ok_get {w : List ℚ} {adj : List (List Nat)}
    {samplers : List AliasSampler}
    (h : initUserItemsSamplers w adj = .ok samplers) :
    ∀ u s, samplers.get? u = some s →
      ∃ c, adj.get? u = some c ∧ s.n = c.length ∧ c.length ≠ 0 := by
  intro u s hs
  simp only [initUserItemsSamplers] at h
  have hlt : u < adj.length := by
    have hl := get?_some_lt hs
    have he := mapE_ok_length h
    omega
  rcases getF_lt_ok hlt with ⟨c, hc⟩
  have hc' := getF_eq_get?.mp hc
  rcases mapE_ok_get h u c hc' with ⟨s', hf, hget⟩
  rw [hs] at hget
  cases hget
  refine ⟨c, hc', ?_⟩
  revert hf
  cases hw : mapE (fun item => getF w item) c with
  | error f => intro hf; cases hf
  | ok weights =>
    intro hf
    simp only at hf
    cases hsamp : NewAliasSampler weights with
    | error e => rw [hsamp] at hf; cases hf
    | ok s'' =>
      rw [hsamp] at hf
      cases hf
      rcases NewAliasSampler_ok_n hsamp with ⟨hn, hpos⟩
      have hwl : weights.length = c.length := mapE_ok_length hw
      omega

theorem NewBird_ok_parts {cfg : BirdCfg} {w : List ℚ} {adj : List (List Nat)}
    {r : RandSrc} {b : Bird}
    (h : NewBird cfg w adj r = .ok b) :
    b.cfg = cfg ∧ b.itemWeights = w ∧ b.usersToItems = adj ∧
    b.itemsToUsers = permuteAdjacencyList w.length adj ∧
    initUserItemsSamplers w adj = .ok b.userItemsSamplers ∧
    b.rand = r ∧ 1 ≤ cfg.depth ∧ 1 ≤ cfg.draws ∧ validateBirdInputs w adj = .ok () := by
  simp only [NewBird] at h
  split at h
  · cases h
  next h1 =>
    split at h
    · cases h
    next h2 =>
      split at h
      · cases h
      next u hval =>
        split at h
        · cases h
        next samplers hsamp =>
          cases h
          cases u
          exact ⟨rfl, rfl, rfl, rfl, by rw [hsamp], rfl, by omega, by omega, hval⟩

theorem NewBird_wf {cfg : BirdCfg} {w : List ℚ} {adj : List (List Nat)}
    {r : RandSrc} {b : Bird}
    (h : NewBird cfg w adj r = .ok b) : WellFormed b := by
  obtain ⟨hcfg, hw, hadj, hitu, hinit, hrand, _, _, hval⟩ := NewBird_ok_parts h
  refine ⟨?_, ?_, ?_, ?_⟩
  · rw [hitu, hw, permuteAdjacencyList_length]
  · rw [hadj, initUserItemsSamplers_ok_length hinit]
  · intro i a hia u hu
    rw [hadj]
    rw [hitu] at hia
    exact permute_mem_lt hia u hu
  · intro u s hs
    rcases initUserItemsSamplers_ok_get hinit u s hs with ⟨c, hc, hn, hne⟩
    rw [hadj]
    exact ⟨c, hc, hn, hne⟩

theorem process_ok_length {b : Bird} {query : List QueryItem} {items refs : List Nat}
    {rf : RandSrc} (h : b.Process query = .ok (items, refs, rf)) :
    items.length = b.cfg.depth.toNat * b.cfg.draws.toNat ∧
    refs.length = b.cfg.depth.toNat * b.cfg.draws.toNat := by
  simp only [Bird.Process] at h
  split at h
  · cases h
  · split at h
    · cases h
    next seeds r1 hseeds =>
      have hlen := sampleItemsFromQuery_ok_length hseeds
      have hloop := processLoop_ok_length b.cfg.depth.toNat r1 items refs rf h
      rw [hlen] at hloop
      exact hloop

/-! Claim theorems. -/

/-- C5: the reverse adjacency built by `permuteAdjacencyList` has one
(possibly empty) list per item (length `numItems`), and for every user `u`
and item `i`, user `u` appears in item `i`'s reverse list exactly as many
times as `i` appears in `u`'s forward collection (membership iff, with
matching multiplicity). -/
theorem claim_c5 (numItems : Nat) (usersToItems : List (List Nat)) :
    (permuteAdjacencyList numItems usersToItems).length = numItems ∧
    ∀ u uList, usersToItems.get? u = some uList →
      ∀ i iList, (permuteAdjacencyList numItems usersToItems).get? i = some iList →
        iList.count u = uList.count i :=
  ⟨permuteAdjacencyList_length numItems usersToItems,
   fun _ _ hu _ _ hi => permute_count hu hi⟩

theorem claim_c5_witness :
    ([0, 1] : List Nat).count 1 = ([1, 2] : List Nat).count 1 :=
  (claim_c5 3 [[0, 1], [1, 2]]).2 1 [1, 2] (by rfl) 1 [0, 1] (by rfl)

/-- C4: for every successfully constructed walker and every query on which
`Process` succeeds, the returned item and referrer sequences each have
length `depth * draws`. -/
theorem claim_c4 {cfg : BirdCfg} {w : List ℚ} {adj : List (List Nat)} {r0 : RandSrc}
    {b : Bird} {query : List QueryItem} {items refs : List Nat} {rf : RandSrc}
    (hb : NewBird cfg w adj r0 = .ok b)
    (h : b.Process query = .ok (items, refs, rf)) :
    items.length = cfg.depth.toNat * cfg.draws.toNat ∧
    refs.length = cfg.depth.toNat * cfg.draws.toNat := by
  obtain ⟨hcfg, -⟩ := NewBird_ok_parts hb
  have hl := process_ok_length h
  rw [hcfg] at hl
  exact hl

theorem claim_c4_witness :
    ([0] : List Nat).length = (1 : Int).toNat * (1 : Int).toNat ∧
    ([0] : List Nat).length = (1 : Int).toNat * (1 : Int).toNat :=
  claim_c4 (by with_unfolding_all rfl :
      NewBird ⟨1, 1⟩ [(1 : ℚ)] [[0]] rZ = .ok birdOob)
    (by with_unfolding_all rfl :
      birdOob.Process [⟨0, 1⟩] = .ok ([0], [0], ⟨seqZ, 3⟩))

/-- C9: two walkers built from identical inputs and identical random-source
states produce identical outputs for identical queries (determinism as a
two-run statement over the explicit random source). -/
theorem claim_c9 {cfg : BirdCfg} {w : List ℚ} {adj : List (List Nat)} {r0 : RandSrc}
    {b1 b2 : Bird} (query : List QueryItem)
    (h1 : NewBird cfg w adj r0 = .ok b1) (h2 : NewBird cfg w adj r0 = .ok b2) :
    b1.Process query = b2.Process query := by
  have hb : b1 = b2 := by
    rw [h1] at h2
    exact Except.ok.inj h2
  rw [hb]

theorem claim_c9_witness :
    birdOob.Process [⟨0, 1⟩] = birdOob.Process [⟨0, 1⟩] :=
  claim_c9 [⟨0, 1⟩]
    (by with_unfolding_all rfl : NewBird ⟨1, 1⟩ [(1 : ℚ)] [[0]] rZ = .ok birdOob)
    (by with_unfolding_all rfl : NewBird ⟨1, 1⟩ [(1 : ℚ)] [[0]] rZ = .ok birdOob)

/-- C8: `NewBird` produces a walker exactly when `depth ≥ 1`, `draws ≥ 1`,
`itemWeights` and `usersToItems` are nonempty, every item index appearing in
`usersToItems` is below `len(itemWeights)`, and (absent sampler-construction
failure) all per-user samplers build; it fails exactly when one of these
conditions is violated. -/
theorem claim_c8 (cfg : BirdCfg) (w : List ℚ) (adj : List (List Nat)) (r0 : RandSrc) :
    (∃ b, NewBird cfg w adj r0 = .ok b) ↔
      (1 ≤ cfg.depth ∧ 1 ≤ cfg.draws ∧ w ≠ [] ∧ adj ≠ [] ∧
       (∀ l ∈ adj, ∀ i ∈ l, i < w.length) ∧
       ∃ s, initUserItemsSamplers w adj = .ok s) := by
  constructor
  · rintro ⟨b, hb⟩
    obtain ⟨-, -, -, -, hinit, -, hd, hk, hval⟩ := NewBird_ok_parts hb
    obtain ⟨hw, ha, hall⟩ := (validateBirdInputs_ok_iff w adj).mp hval
    exact ⟨hd, hk, hw, ha, hall, b.userItemsSamplers, hinit⟩
  · rintro ⟨hd, hk, hw, ha, hall, s, hinit⟩
    have hval : validateBirdInputs w adj = .ok () :=
      (validateBirdInputs_ok_iff w adj).mpr ⟨hw, ha, hall⟩
    refine ⟨⟨cfg, w, adj, permuteAdjacencyList w.length adj, s, r0⟩, ?_⟩
    simp only [NewBird]
    rw [if_neg (by omega), if_neg (by omega)]
    simp only [hval, hinit]

theorem claim_c8_witness : ∃ b, NewBird ⟨1, 1⟩ [(1 : ℚ)] [[0]] rZ = .ok b :=
  (claim_c8 ⟨1, 1⟩ [(1 : ℚ)] [[0]] rZ).mpr
    ⟨by decide, by decide, by simp, by simp, by decide,
     [⟨1⟩], by with_unfolding_all rfl⟩

/-- C7 (amended): a sampler-construction failure for some user's collection
makes `NewBird` fail with an error that wraps the root cause under the fixed
context messages, but the error value does not include the index of the
offending user. -/
theorem claim_c7 {cfg : BirdCfg} {w : List ℚ} {adj : List (List Nat)}
    {r0 : RandSrc} {f : Failure}
    (hd : 1 ≤ cfg.depth) (hk : 1 ≤ cfg.draws)
    (hval : validateBirdInputs w adj = .ok ())
    (hinit : initUserItemsSamplers w adj = .error f) :
    NewBird cfg w adj r0 = .error (wrapF "cannot initialize samplers" f) := by
  simp only [NewBird]
  rw [if_neg (by omega), if_neg (by omega)]
  simp only [hval, hinit]

/-- C7 (counterexample): with `itemWeights = [0, 1]`, the adjacency
`[[0], [1]]` fails at user 0 (its collection weight vector `[0]` sums to
zero) while `[[1], [0]]` fails at user 1, yet `NewBird` returns the very
same error value for both, so the error does not retain the offending user
index. -/
theorem claim_c7_counterexample :
    NewAliasSampler [(0 : ℚ)] = .error (.msg "invalid weight") ∧
    NewAliasSampler [(1 : ℚ)] = .ok ⟨1⟩ ∧
    NewBird ⟨1, 1⟩ [0, 1] [[0], [1]] rZ = NewBird ⟨1, 1⟩ [0, 1] [[1], [0]] rZ ∧
    NewBird ⟨1, 1⟩ [0, 1] [[0], [1]] rZ =
      .error (.berr (.wrap "cannot initialize samplers"
        (.wrap "could not initialize the probability and alias tables"
          (.msg "invalid weight")))) :=
  ⟨by with_unfolding_all rfl, by with_unfolding_all rfl,
   by with_unfolding_all rfl, by with_unfolding_all rfl⟩

theorem claim_c7_witness :
    NewBird ⟨1, 1⟩ [0, 1] [[1], [0]] rZ =
      .error (wrapF "cannot initialize samplers"
        (.berr (.wrap "could not initialize the probability and alias tables"
          (.msg "invalid weight")))) :=
  claim_c7 (by decide) (by decide) (by with_unfolding_all rfl)
    (by with_unfolding_all rfl)

/-- C1: the claim asserts that each hop's output is the input of the next
hop (a chained multi-hop walk).  The Go loop body re-declares `stepItems`
with `:=`, so every hop steps from the original seeds instead; on the
concrete walker `birdC1` (depth 2) the embedding of the code and the
spec-modelled chained walk provably disagree: the code yields referrers
`[0, 0]` (hop 2 re-walks seed item 0) while chaining yields `[0, 1]`
(hop 2 walks hop 1's output item 1). -/
theorem claim_c1 :
    NewBird ⟨2, 1⟩ [1, 1, 1] [[0, 1], [1, 2]] ⟨seqC1, 0⟩ = .ok birdC1 ∧
    outPair (birdC1.Process [⟨0, 1⟩]) = .ok ([1, 0], [0, 0]) ∧
    outPair (birdC1.chainedProcess [⟨0, 1⟩]) = .ok ([1, 1], [0, 1]) ∧
    outPair (birdC1.Process [⟨0, 1⟩]) ≠ outPair (birdC1.chainedProcess [⟨0, 1⟩]) :=
  ⟨by with_unfolding_all rfl, by with_unfolding_all decide,
   by with_unfolding_all decide, by with_unfolding_all decide⟩

/-- C2: the claim asserts `Process` fails with `NoValidSeeds` when every
sampled seed maps to an item with empty reverse adjacency.  On `birdC2`,
querying item 2 (which nobody interacted with) makes every sampled seed
invalid, yet `sampleItemsFromQuery` succeeds with the slot left at the
default item 0 and `Process` succeeds, returning a walk seeded at item 0 —
no `NoValidSeeds` error is raised (the `len(sampledItems) == 0` check is
dead code, the slice being preallocated with `Draws ≥ 1` slots). -/
theorem claim_c2 :
    NewBird ⟨1, 1⟩ [1, 1, 1] [[0, 1]] rZ = .ok birdC2 ∧
    birdC2.itemsToUsers.get? 2 = some [] ∧
    outSeeds (birdC2.sampleItemsFromQuery [⟨2, 1⟩] birdC2.rand) = .ok [0] ∧
    outPair (birdC2.Process [⟨2, 1⟩]) = .ok ([0], [0]) :=
  ⟨by with_unfolding_all rfl, by rfl,
   by with_unfolding_all decide, by with_unfolding_all decide⟩

/-- C3: whenever `sampleItemsFromQuery` succeeds, the returned seed slice
has length exactly `Cfg.Draws`, and every sampled position whose query item
has an empty reverse-adjacency list is left at the default value 0 rather
than being excluded. -/
theorem claim_c3 {b : Bird} {query : List QueryItem} {r : RandSrc}
    {seeds : List Nat} {r' : RandSrc}
    (h : b.sampleItemsFromQuery query r = .ok (seeds, r')) :
    seeds.length = b.cfg.draws.toNat ∧
    ∃ ds : List Nat, ds.length = b.cfg.draws.toNat ∧
      buildSampled b.itemsToUsers (query.map (fun q => q.item)) ds = .ok seeds ∧
      ∀ k iid it, ds.get? k = some iid →
        (query.map (fun q => q.item)).get? iid = some it →
        b.itemsToUsers.get? it = some [] →
        seeds.get? k = some 0 := by
  refine ⟨sampleItemsFromQuery_ok_length h, ?_⟩
  rcases sampleItemsFromQuery_ok_parts h with ⟨ds, hds, hbuild⟩
  refine ⟨ds, hds, hbuild, ?_⟩
  intro k iid it hk hitem hadj
  rcases buildSampled_ok_get hbuild k iid hk with ⟨it', adj', hit', hadj', hslot⟩
  have hie : it' = it := by
    have hg := getF_eq_get?.mp hit'
    rw [hitem] at hg
    exact (Option.some.inj hg).symm
  subst hie
  have hae : adj' = [] := by
    have hg := getF_eq_get?.mp hadj'
    rw [hadj] at hg
    exact (Option.some.inj hg).symm
  subst hae
  simpa using hslot

theorem claim_c3_witness : ([0] : List Nat).length = birdC2.cfg.draws.toNat :=
  (@claim_c3 birdC2 [⟨2, 1⟩] rZ [0] ⟨seqZ, 1⟩ (by with_unfolding_all rfl)).1

/-- C6: if the working set of the walk contains an item with an empty
reverse-adjacency list, the whole `Process` call fails with the orphan-item
error wrapped once (first conjunct) — since the Go depth loop re-reads the
original seeds each iteration, the seed set is the working set of every hop
— and `Process` never returns a truncated result: a successful call always
carries two complete sequences of length `depth * draws` (second
conjunct). -/
theorem claim_c6 :
    (∀ (b : Bird) (query : List QueryItem) (seeds : List Nat) (r1 : RandSrc) (it : Nat),
      b.sampleItemsFromQuery query b.rand = .ok (seeds, r1) →
      it ∈ seeds → b.itemsToUsers.get? it = some [] →
      query.length ≠ 0 → 1 ≤ b.cfg.depth →
      ∃ m, b.Process query =
        .error (.berr (.wrap "cannot step through items" (.msg m)))) ∧
    (∀ (b : Bird) (query : List QueryItem) (items refs : List Nat) (rf : RandSrc),
      b.Process query = .ok (items, refs, rf) →
      items.length = b.cfg.depth.toNat * b.cfg.draws.toNat ∧
      refs.length = b.cfg.depth.toNat * b.cfg.draws.toNat) := by
  constructor
  · intro b query seeds r1 it hseeds hit horphan hq hd
    have hb : ∀ x ∈ seeds, x < b.itemsToUsers.length := sampleItemsFromQuery_ok_mem hseeds
    have hdep : b.cfg.depth.toNat ≠ 0 := by omega
    rcases processLoop_orphan hb hit (getF_eq_get?.mpr horphan) b.cfg.depth.toNat hdep r1
      with ⟨m, hloop⟩
    refine ⟨m, ?_⟩
    simp only [Bird.Process]
    rw [if_neg hq]
    simp only [hseeds]
    exact hloop
  · intro b query items refs rf h
    exact process_ok_length h

theorem claim_c6_witness : (birdC6.Process [⟨0, 1⟩]).isOk = false := by
  rcases claim_c6.1 birdC6 [⟨0, 1⟩] [0] ⟨seqZ, 1⟩ 0 (by with_unfolding_all rfl)
    (by decide) (by rfl) (by decide) (by decide) with ⟨m, hm⟩
  rw [hm]
  rfl

/-- C10: under the precondition that every query item index is below
`len(ItemWeights)`, a `Process` call on a `NewBird`-constructed walker never
reaches the out-of-bounds branch of the embedding (first conjunct); without
the precondition, a query item index past the weight vector produces an
out-of-bounds access, not a validation error (second conjunct). -/
theorem claim_c10 :
    (∀ (cfg : BirdCfg) (w : List ℚ) (adj : List (List Nat)) (r0 : RandSrc) (b : Bird)
        (query : List QueryItem),
      NewBird cfg w adj r0 = .ok b →
      (∀ q ∈ query, q.item < w.length) →
      b.Process query ≠ .error .oob) ∧
    (NewBird ⟨1, 1⟩ [(1 : ℚ)] [[0]] rZ = .ok birdOob ∧
      birdOob.Process [⟨5, 1⟩] = .error .oob) := by
  constructor
  · intro cfg w adj r0 b query hb hq
    obtain ⟨hcfg, hw, hadj, hitu, hinit, hrand, hd, hk, hval⟩ := NewBird_ok_parts hb
    have hwf := NewBird_wf hb
    have hlen : b.itemsToUsers.length = b.itemWeights.length := hwf.1
    have hq' : ∀ q ∈ query, q.item < b.itemWeights.length := by
      rw [hw]
      exact hq
    intro hcontra
    simp only [Bird.Process] at hcontra
    split at hcontra
    · exact Failure.noConfusion (Except.error.inj hcontra)
    · split at hcontra
      next f hf =>
        rcases sampleItemsFromQuery_shape b.rand hlen hq' with ⟨seeds, r', hok⟩ | ⟨e, herr⟩
        · rw [hok] at hf
          cases hf
        · rw [herr] at hf
          cases hf
          exact Failure.noConfusion (Except.error.inj hcontra)
      next seeds r1 hok =>
        rcases processLoop_shape hwf (sampleItemsFromQuery_ok_mem hok)
            b.cfg.depth.toNat r1 with ⟨out, hloop⟩ | ⟨e, hloop⟩
        · rw [hloop] at hcontra
          cases hcontra
        · rw [hloop] at hcontra
          exact Failure.noConfusion (Except.error.inj hcontra)
  · exact ⟨by with_unfolding_all rfl, by with_unfolding_all rfl⟩

theorem claim_c10_witness : birdOob.Process [⟨0, 1⟩] ≠ .error .oob :=
  claim_c10.1 ⟨1, 1⟩ [(1 : ℚ)] [[0]] rZ birdOob [⟨0, 1⟩]
    (by with_unfolding_all rfl) (by decide)
